import Mathlib

/-!
Verification of the speaking-opportunities store: a shallow embedding of the
SQL schema, the upsert-based ingestion in `scrape.py`, and the filtered,
ordered query path in `app/main.py`, together with proofs of the documented
invariants (URL uniqueness, id stability, result ordering, filter semantics).
-/

namespace SpeakingOpps

/-- A calendar date (`DATE` column / Python `datetime.date`), ordered
lexicographically by year, month, day. -/
structure Date where
  year : Nat
  month : Nat
  day : Nat
deriving DecidableEq

/-- Boolean date comparison (year, then month, then day). -/
def Date.leb (a b : Date) : Bool :=
  decide (a.year < b.year ∨ (a.year = b.year ∧
    (a.month < b.month ∨ (a.month = b.month ∧ a.day ≤ b.day))))

/-- Python date replacement `today.replace(day=d)` from `datetime.date`. -/
def Date.replaceDay (a : Date) (d : Nat) : Date :=
  { a with day := d }

/-- A candidate row handed to `UPSERT_SQL` in `scrape.py`: the bound
parameters `:title .. :last_seen`.  Optional fields model nullable columns. -/
structure Candidate where
  title : String
  organizer : Option String
  url : String
  location : Option String
  is_remote : Option Bool
  topic_tags : Option String
  cfp_deadline : Option Date
  event_date : Option Date
  source : Option String
  last_seen : Date
deriving DecidableEq

/-- A row of the `opportunities` table as declared by `SCHEMA_SQL`:
`id SERIAL PRIMARY KEY`, `url TEXT UNIQUE NOT NULL`, nullable fields as
`Option`. -/
structure OpportunityRecord where
  id : Nat
  title : String
  organizer : Option String
  url : String
  location : Option String
  is_remote : Option Bool
  topic_tags : Option String
  cfp_deadline : Option Date
  event_date : Option Date
  source : Option String
  last_seen : Date
deriving DecidableEq

/-- The `opportunities` table: its rows plus the `SERIAL` sequence counter
that provides the next auto-assigned `id`. -/
structure Store where
  rows : List OpportunityRecord
  nextId : Nat
deriving DecidableEq

/-- A freshly created database: empty table, `SERIAL` sequence at 1. -/
def emptyStore : Store :=
  { rows := [], nextId := 1 }

/-- The `DO UPDATE SET` clause of `UPSERT_SQL`: on the conflicting row
(matching `url`) every listed column is overwritten from `EXCLUDED`;
`id` and `url` are not in the `SET` list and stay unchanged. -/
def applyUpdate (c : Candidate) (r : OpportunityRecord) : OpportunityRecord :=
  if r.url = c.url then
    { r with
      title := c.title
      organizer := c.organizer
      location := c.location
      is_remote := c.is_remote
      topic_tags := c.topic_tags
      cfp_deadline := c.cfp_deadline
      event_date := c.event_date
      source := c.source
      last_seen := c.last_seen }
  else r

/-- The row built by the `INSERT` arm of `UPSERT_SQL`: all bound columns from
the candidate, `id` auto-assigned by the `SERIAL` sequence. -/
def newRec (i : Nat) (c : Candidate) : OpportunityRecord :=
  { id := i
    title := c.title
    organizer := c.organizer
    url := c.url
    location := c.location
    is_remote := c.is_remote
    topic_tags := c.topic_tags
    cfp_deadline := c.cfp_deadline
    event_date := c.event_date
    source := c.source
    last_seen := c.last_seen }

/-- The statement `UPSERT_SQL`: `INSERT .. ON CONFLICT (url) DO UPDATE SET ..`.  If some
row already holds the candidate's `url` the conflict arm updates it in
place; otherwise a new row is appended with the next `SERIAL` id. -/
def upsert (s : Store) (c : Candidate) : Store :=
  if s.rows.any (fun r => decide (r.url = c.url)) then
    { s with rows := s.rows.map (applyUpdate c) }
  else
    { rows := s.rows ++ [newRec s.nextId c], nextId := s.nextId + 1 }

/-- The ingestion loop of `scrape.py` `main`: each item of the batch is
upserted in order (`for item in sample: conn.execute(text(UPSERT_SQL), item)`). -/
def ingest (s : Store) (cs : List Candidate) : Store :=
  cs.foldl upsert s

/-- The hard-coded `sample` batch built inside `main`, parameterized by the
run's `today = date.today()`; every item carries `last_seen = today`. -/
def sampleBatch (today : Date) : List Candidate :=
  [ { title := "Call for Speakers: AI Infrastructure Summit"
      organizer := some "Example Events"
      url := "https://example.com/cfp/ai-infra"
      location := some "San Francisco, CA"
      is_remote := some false
      topic_tags := some "AI, data centers, infrastructure"
      cfp_deadline := some (today.replaceDay (min today.day 28))
      event_date := none
      source := some "sample"
      last_seen := today },
    { title := "Webinar Speakers Needed: Sustainable Energy Tech"
      organizer := some "Example Webinar Org"
      url := "https://example.com/cfp/sustainability-webinar"
      location := some "Remote"
      is_remote := some true
      topic_tags := some "sustainability, energy, grid"
      cfp_deadline := none
      event_date := none
      source := some "sample"
      last_seen := today },
    { title := "Panel Opportunity: Cybersecurity in Industrial Systems"
      organizer := some "Example Conference"
      url := "https://example.com/cfp/ics-security"
      location := some "Chicago, IL"
      is_remote := some false
      topic_tags := some "cybersecurity, industrial, OT"
      cfp_deadline := none
      event_date := none
      source := some "sample"
      last_seen := today } ]

/-- The urls of the sample batch (independent of the run date). -/
def sampleUrls : List String :=
  [ "https://example.com/cfp/ai-infra",
    "https://example.com/cfp/sustainability-webinar",
    "https://example.com/cfp/ics-security" ]

/-- One ingestion run: `main` ensures the schema and upserts the sample
batch inside a single transaction. -/
def main (today : Date) (s : Store) : Store :=
  ingest s (sampleBatch today)

/-- The only summary `main` reports: the single number interpolated into
`"Inserted/updated {len(sample)} items."`. -/
def mainSummary (today : Date) : Nat :=
  (sampleBatch today).length

/-- How many candidates of a batch hit the `INSERT` arm of the upsert
(no existing row with their `url` at the moment they are processed). -/
def countInserted : Store → List Candidate → Nat
  | _, [] => 0
  | s, c :: cs =>
    (if s.rows.any (fun r => decide (r.url = c.url)) then 0 else 1) +
      countInserted (upsert s c) cs

/-- How many candidates of a batch hit the `DO UPDATE` arm of the upsert. -/
def countUpdated : Store → List Candidate → Nat
  | _, [] => 0
  | s, c :: cs =>
    (if s.rows.any (fun r => decide (r.url = c.url)) then 1 else 0) +
      countUpdated (upsert s c) cs

/-- Well-formedness the schema guarantees: `url` is `UNIQUE`, and every
assigned `id` is below the `SERIAL` counter. -/
def Store.WF (s : Store) : Prop :=
  (s.rows.map (fun r => r.url)).Nodup ∧ ∀ r ∈ s.rows, r.id < s.nextId

instance (s : Store) : Decidable s.WF := by
  unfold Store.WF
  infer_instance

/-! ### Query engine (`app/main.py`) -/

/-- ASCII lowercasing of a character list: `LOWER(..)` in the SQL and
`.lower()` on the Python side of `fetch_opportunities`. -/
def lowerL (l : List Char) : List Char :=
  l.map Char.toLower

/-- Helper for the `%` wildcard of SQL `LIKE`: does `f` accept some suffix
of `s`? -/
def likeStar (f : List Char → Bool) : List Char → Bool
  | [] => f []
  | c :: s => f (c :: s) || likeStar f s

/-- SQL `LIKE` pattern matching: `%` matches any (possibly empty) run of
characters, `_` matches exactly one character, anything else matches
itself. -/
def likeMatch : List Char → List Char → Bool
  | [], s => s.isEmpty
  | p :: ps, s =>
    if p = '%' then likeStar (likeMatch ps) s
    else
      match s with
      | [] => false
      | c :: t => (decide (p = '_') || p == c) && likeMatch ps t

/-- The bound parameter `f"%{x.lower()}%"` built in `fetch_opportunities`. -/
def likeParam (x : String) : List Char :=
  '%' :: (lowerL x.data ++ ['%'])

/-- Evaluation of `LOWER(column) LIKE pattern` on a nullable column: SQL `NULL` never
matches. -/
def optLike (field : Option String) (pat : List Char) : Bool :=
  match field with
  | none => false
  | some t => likeMatch pat (lowerL t.data)

/-- The `WHERE` clause assembled by `fetch_opportunities`: each supplied
filter contributes one conjunct (`" AND ".join(where)`).  A `None` or empty
`q`/`tag` adds no conjunct (`if q:` / `if tag:`); `remote` compares
`is_remote = :remote`, which a `NULL` column value never satisfies. -/
def rowMatches (q tag : Option String) (remote : Option Bool)
    (r : OpportunityRecord) : Bool :=
  (match q with
   | none => true
   | some qs =>
     qs == "" ||
       (optLike (some r.title) (likeParam qs) || optLike r.organizer (likeParam qs))) &&
  (match tag with
   | none => true
   | some ts => ts == "" || optLike r.topic_tags (likeParam ts)) &&
  (match remote with
   | none => true
   | some b => r.is_remote == some b)

/-- The `ORDER BY` key of `fetch_opportunities` as a boolean total preorder:
`CASE WHEN cfp_deadline IS NULL THEN 1 ELSE 0 END, cfp_deadline ASC,
last_seen DESC`. -/
def recLE (a b : OpportunityRecord) : Bool :=
  match a.cfp_deadline, b.cfp_deadline with
  | none, none => Date.leb b.last_seen a.last_seen
  | none, some _ => false
  | some _, none => true
  | some da, some db =>
    if da = db then Date.leb b.last_seen a.last_seen else Date.leb da db

/-- Insert an element into a list so that a list already ordered by `le`
stays ordered. -/
def insertOrd (le : α → α → Bool) (a : α) : List α → List α
  | [] => [a]
  | b :: l => if le a b then a :: b :: l else b :: insertOrd le a l

/-- Sort a list by the boolean comparison `le` (the `ORDER BY` of the
query). -/
def sortOrd (le : α → α → Bool) : List α → List α
  | [] => []
  | a :: l => insertOrd le a (sortOrd le l)

/-- The query `fetch_opportunities`: filter by the `WHERE` conjuncts, order by the
fixed `ORDER BY` key, truncate to `LIMIT :limit` (default 50). -/
def fetch_opportunities (s : Store) (q tag : Option String)
    (remote : Option Bool) (limit : Nat := 50) : List OpportunityRecord :=
  (sortOrd recLE (s.rows.filter (rowMatches q tag remote))).take limit

/-- The JSON payload of `/api/opportunities`:
`{count: len(results), results: results}`. -/
structure ApiResponse where
  count : Nat
  results : List OpportunityRecord
deriving DecidableEq

/-- The endpoint `api_opportunities`: passes its parameters (default `limit=50`)
straight to `fetch_opportunities` and wraps the result. -/
def api_opportunities (s : Store) (q tag : Option String)
    (remote : Option Bool) (limit : Nat := 50) : ApiResponse :=
  let results := fetch_opportunities s q tag remote limit
  { count := results.length, results := results }

/-- The `remote` string-to-bool mapping in the `home` route:
`"yes"` gives `True`, `"no"` gives `False`, anything else stays `None`. -/
def parseRemote (remote : Option String) : Option Bool :=
  if remote = some "yes" then some true
  else if remote = some "no" then some false
  else none

/-- The records the `home` route renders:
`fetch_opportunities(q=q, tag=tag, remote=remote_bool, limit=50)`. -/
def home (s : Store) (q tag remote : Option String) : List OpportunityRecord :=
  fetch_opportunities s q tag (parseRemote remote) 50

/-! ### Derived notions used in the statements -/

/-- The first (in a well-formed store: the only) record holding a url. -/
def findRec (s : Store) (u : String) : Option OpportunityRecord :=
  s.rows.find? (fun r => decide (r.url = u))

/-- How many records of the store hold a given url. -/
def urlCount (s : Store) (u : String) : Nat :=
  (s.rows.filter (fun r => decide (r.url = u))).length

/-- A record carries exactly the mutable-field values of a candidate
(all `DO UPDATE SET` columns: everything but `id` and `url`). -/
def matchesCand (r : OpportunityRecord) (c : Candidate) : Prop :=
  r.title = c.title ∧ r.organizer = c.organizer ∧ r.location = c.location ∧
    r.is_remote = c.is_remote ∧ r.topic_tags = c.topic_tags ∧
    r.cfp_deadline = c.cfp_deadline ∧ r.event_date = c.event_date ∧
    r.source = c.source ∧ r.last_seen = c.last_seen

/-- The documented ordering contract between two adjacent result records:
both dated with non-decreasing deadlines, or dated before undated, or both
undated with non-increasing `last_seen`. -/
def claimOrder (a b : OpportunityRecord) : Prop :=
  (∃ da db, a.cfp_deadline = some da ∧ b.cfp_deadline = some db ∧
      Date.leb da db = true) ∨
    (a.cfp_deadline ≠ none ∧ b.cfp_deadline = none) ∨
    (a.cfp_deadline = none ∧ b.cfp_deadline = none ∧
      Date.leb b.last_seen a.last_seen = true)

/-- A character list free of the SQL `LIKE` wildcards. -/
def noWild (l : List Char) : Prop :=
  ∀ c ∈ l, c ≠ '%' ∧ c ≠ '_'

instance (l : List Char) : Decidable (noWild l) := by
  unfold noWild
  infer_instance

/-! ### Concrete fixtures for witnesses and counterexamples -/

/-- A candidate violating the spec's required-field rule: empty `title`
and empty `url` (both still satisfy the SQL `NOT NULL` constraints). -/
def badCand : Candidate :=
  { title := "", organizer := none, url := "", location := none,
    is_remote := none, topic_tags := none, cfp_deadline := none,
    event_date := none, source := none, last_seen := ⟨2025, 1, 1⟩ }

/-- A stored record whose `topic_tags` is the plain text "abc". -/
def exRec : OpportunityRecord :=
  { id := 1, title := "T", organizer := none, url := "https://x",
    location := none, is_remote := some false, topic_tags := some "abc",
    cfp_deadline := none, event_date := none, source := none,
    last_seen := ⟨2025, 1, 1⟩ }

/-- A one-record store. -/
def exStore : Store :=
  { rows := [exRec], nextId := 2 }

/-- A candidate re-presenting `exRec.url` with a different title. -/
def exCand : Candidate :=
  { title := "T2", organizer := some "Org", url := "https://x",
    location := none, is_remote := some true, topic_tags := some "xyz",
    cfp_deadline := none, event_date := none, source := some "s2",
    last_seen := ⟨2025, 2, 2⟩ }

/-! ### Basic facts about the upsert -/

theorem applyUpdate_url (c : Candidate) (r : OpportunityRecord) :
    (applyUpdate c r).url = r.url := by
  unfold applyUpdate
  split <;> rfl

theorem applyUpdate_id (c : Candidate) (r : OpportunityRecord) :
    (applyUpdate c r).id = r.id := by
  unfold applyUpdate
  split <;> rfl

theorem applyUpdate_of_ne (c : Candidate) (r : OpportunityRecord)
    (h : r.url ≠ c.url) : applyUpdate c r = r := by
  unfold applyUpdate
  exact if_neg h

theorem upsert_pos (s : Store) (c : Candidate)
    (h : ∃ r ∈ s.rows, r.url = c.url) :
    upsert s c = { s with rows := s.rows.map (applyUpdate c) } := by
  unfold upsert
  rw [if_pos]
  rw [List.any_eq_true]
  obtain ⟨r, hr, hu⟩ := h
  exact ⟨r, hr, by simpa using hu⟩

theorem upsert_neg (s : Store) (c : Candidate)
    (h : ∀ r ∈ s.rows, r.url ≠ c.url) :
    upsert s c =
      { rows := s.rows ++ [newRec s.nextId c], nextId := s.nextId + 1 } := by
  unfold upsert
  rw [if_neg]
  simp only [List.any_eq_true, decide_eq_true_eq, not_exists, not_and]
  exact h

theorem upsert_urls_pos (s : Store) (c : Candidate)
    (h : ∃ r ∈ s.rows, r.url = c.url) :
    (upsert s c).rows.map (fun r => r.url) = s.rows.map (fun r => r.url) := by
  rw [upsert_pos s c h]
  simp [List.map_map, Function.comp, applyUpdate_url]

theorem upsert_urls_neg (s : Store) (c : Candidate)
    (h : ∀ r ∈ s.rows, r.url ≠ c.url) :
    (upsert s c).rows.map (fun r => r.url) =
      s.rows.map (fun r => r.url) ++ [c.url] := by
  rw [upsert_neg s c h]
  simp [newRec]

theorem mem_upsert_of_ne (s : Store) (c : Candidate) (r : OpportunityRecord)
    (hr : r ∈ (upsert s c).rows) (hne : r.url ≠ c.url) : r ∈ s.rows := by
  by_cases h : ∃ r0 ∈ s.rows, r0.url = c.url
  · rw [upsert_pos s c h] at hr
    obtain ⟨r0, hr0, rfl⟩ := List.mem_map.mp hr
    rw [applyUpdate_url] at hne
    rw [applyUpdate_of_ne c r0 hne]
    exact hr0
  · push_neg at h
    rw [upsert_neg s c h] at hr
    rcases List.mem_append.mp hr with h1 | h1
    · exact h1
    · exfalso
      apply hne
      have : r = newRec s.nextId c := by simpa using h1
      rw [this]
      rfl

theorem upsert_fields (s : Store) (c : Candidate) (r : OpportunityRecord)
    (hr : r ∈ (upsert s c).rows) (hu : r.url = c.url) : matchesCand r c := by
  by_cases h : ∃ r0 ∈ s.rows, r0.url = c.url
  · rw [upsert_pos s c h] at hr
    obtain ⟨r0, hr0, rfl⟩ := List.mem_map.mp hr
    by_cases h0 : r0.url = c.url
    · unfold matchesCand applyUpdate
      rw [if_pos h0]
      exact ⟨rfl, rfl, rfl, rfl, rfl, rfl, rfl, rfl, rfl⟩
    · rw [applyUpdate_url] at hu
      exact absurd hu h0
  · push_neg at h
    rw [upsert_neg s c h] at hr
    rcases List.mem_append.mp hr with h1 | h1
    · exact absurd hu (h r h1)
    · have : r = newRec s.nextId c := by simpa using h1
      rw [this]
      exact ⟨rfl, rfl, rfl, rfl, rfl, rfl, rfl, rfl, rfl⟩

theorem upsert_mem_url (s : Store) (c : Candidate) :
    ∃ r ∈ (upsert s c).rows, r.url = c.url := by
  by_cases h : ∃ r0 ∈ s.rows, r0.url = c.url
  · obtain ⟨r0, hr0, h0⟩ := h
    rw [upsert_pos s c ⟨r0, hr0, h0⟩]
    refine ⟨applyUpdate c r0, List.mem_map_of_mem _ hr0, ?_⟩
    rw [applyUpdate_url]
    exact h0
  · push_neg at h
    rw [upsert_neg s c h]
    exact ⟨newRec s.nextId c, by simp, rfl⟩

theorem WF_emptyStore : emptyStore.WF := by
  decide

theorem WF_upsert (s : Store) (c : Candidate) (h : s.WF) : (upsert s c).WF := by
  obtain ⟨hnd, hid⟩ := h
  by_cases hex : ∃ r0 ∈ s.rows, r0.url = c.url
  · constructor
    · rw [upsert_urls_pos s c hex]
      exact hnd
    · intro r hr
      rw [upsert_pos s c hex] at hr ⊢
      obtain ⟨r0, hr0, rfl⟩ := List.mem_map.mp hr
      rw [applyUpdate_id]
      exact hid r0 hr0
  · push_neg at hex
    constructor
    · rw [upsert_urls_neg s c hex]
      rw [List.nodup_append]
      refine ⟨hnd, List.nodup_singleton _, ?_⟩
      intro u hu hu1
      have : u = c.url := by simpa using hu1
      subst this
      obtain ⟨r0, hr0, h0⟩ := List.mem_map.mp hu
      exact hex r0 hr0 h0
    · intro r hr
      rw [upsert_neg s c hex] at hr ⊢
      rcases List.mem_append.mp hr with h1 | h1
      · exact Nat.lt_succ_of_lt (hid r h1)
      · have : r = newRec s.nextId c := by simpa using h1
        rw [this]
        exact Nat.lt_succ_self _

theorem WF_ingest (cs : List Candidate) :
    ∀ s : Store, s.WF → (ingest s cs).WF := by
  induction cs with
  | nil => exact fun s h => h
  | cons c cs ih => exact fun s h => ih (upsert s c) (WF_upsert s c h)

theorem filter_url_eq_one (l : List OpportunityRecord) (u : String)
    (hnd : (l.map (fun r => r.url)).Nodup) (h : ∃ r ∈ l, r.url = u) :
    (l.filter (fun r => decide (r.url = u))).length = 1 := by
  induction l with
  | nil => simp at h
  | cons a l ih =>
    rw [List.map_cons, List.nodup_cons] at hnd
    obtain ⟨ha, hnd'⟩ := hnd
    obtain ⟨r, hr, rfl⟩ := h
    rcases List.mem_cons.mp hr with rfl | hr'
    · rw [List.filter_cons, if_pos (by simp)]
      have he : l.filter (fun x => decide (x.url = r.url)) = [] := by
        rw [List.filter_eq_nil_iff]
        intro x hx hxu
        rw [decide_eq_true_eq] at hxu
        exact ha (hxu ▸ List.mem_map_of_mem _ hx)
      rw [he]
      rfl
    · rw [List.filter_cons, if_neg]
      · exact ih hnd' ⟨r, hr', rfl⟩
      · simp only [decide_eq_true_eq]
        intro hau
        exact ha (hau ▸ List.mem_map_of_mem _ hr')

theorem urlCount_eq_one (s : Store) (u : String)
    (hnd : (s.rows.map (fun r => r.url)).Nodup)
    (h : ∃ r ∈ s.rows, r.url = u) : urlCount s u = 1 :=
  filter_url_eq_one s.rows u hnd h

theorem urlCount_upsert_pos (s : Store) (c : Candidate) (u : String)
    (h : ∃ r ∈ s.rows, r.url = c.url) :
    urlCount (upsert s c) u = urlCount s u := by
  unfold urlCount
  rw [upsert_pos s c h]
  show ((s.rows.map (applyUpdate c)).filter _).length = _
  rw [List.filter_map, List.length_map]
  congr 1
  apply List.filter_congr
  intro r _
  simp [Function.comp, applyUpdate_url]

theorem findRec_upsert_id (s : Store) (c : Candidate)
    (h : ∃ r ∈ s.rows, r.url = c.url) :
    (findRec (upsert s c) c.url).map (fun r => r.id) =
      (findRec s c.url).map (fun r => r.id) := by
  unfold findRec
  rw [upsert_pos s c h]
  show ((s.rows.map (applyUpdate c)).find? _).map _ = _
  have h1 : ((fun r : OpportunityRecord => decide (r.url = c.url)) ∘ applyUpdate c) =
      fun r : OpportunityRecord => decide (r.url = c.url) := by
    funext r
    simp [Function.comp, applyUpdate_url]
  rw [List.find?_map, Option.map_map, h1]
  congr 1
  funext r
  simp [Function.comp, applyUpdate_id]

/-! ### Claims about the upsert protocol -/

/-- C1: any sequence of upserts starting from the empty store keeps the
`url` column duplicate-free — a conflicting candidate updates the existing
row instead of inserting a second one. -/
theorem ingest_url_unique (cs : List Candidate) :
    ((ingest emptyStore cs).rows.map (fun r => r.url)).Nodup :=
  (WF_ingest cs emptyStore WF_emptyStore).1

/-- C2: upserting a candidate whose `url` is already present keeps the row
count and every `id` (in particular the id found under that url), and
overwrites all mutable fields with the candidate's values; upserting a
fresh `url` appends a new row carrying the next `SERIAL` id, which no
existing row uses. -/
theorem upsert_update_or_insert (s : Store) (c : Candidate) (hwf : s.WF) :
    ((∃ r0 ∈ s.rows, r0.url = c.url) →
      (upsert s c).rows.length = s.rows.length ∧
      (upsert s c).rows.map (fun r => r.id) = s.rows.map (fun r => r.id) ∧
      (findRec (upsert s c) c.url).map (fun r => r.id) =
        (findRec s c.url).map (fun r => r.id) ∧
      ∀ r ∈ (upsert s c).rows, r.url = c.url → matchesCand r c) ∧
    ((∀ r0 ∈ s.rows, r0.url ≠ c.url) →
      (upsert s c).rows = s.rows ++ [newRec s.nextId c] ∧
      ∀ r0 ∈ s.rows, r0.id ≠ (newRec s.nextId c).id) := by
  constructor
  · intro hex
    refine ⟨?_, ?_, findRec_upsert_id s c hex, fun r hr hu => upsert_fields s c r hr hu⟩
    · rw [upsert_pos s c hex]
      exact List.length_map _ _
    · rw [upsert_pos s c hex]
      show (s.rows.map (applyUpdate c)).map _ = _
      simp [List.map_map, Function.comp, applyUpdate_id]
  · intro hab
    refine ⟨by rw [upsert_neg s c hab], fun r0 hr0 => ?_⟩
    show r0.id ≠ s.nextId
    exact Nat.ne_of_lt (hwf.2 r0 hr0)

/-- C2 witness: on the one-record store, re-presenting the stored url
updates in place (same ids, fields overwritten). -/
theorem upsert_update_or_insert_witness :
    (upsert exStore exCand).rows.length = exStore.rows.length ∧
    (upsert exStore exCand).rows.map (fun r => r.id) =
      exStore.rows.map (fun r => r.id) ∧
    (findRec (upsert exStore exCand) exCand.url).map (fun r => r.id) =
      (findRec exStore exCand.url).map (fun r => r.id) ∧
    ∀ r ∈ (upsert exStore exCand).rows, r.url = exCand.url →
      matchesCand r exCand :=
  (upsert_update_or_insert exStore exCand (by decide)).1
    ⟨exRec, by decide, by decide⟩

/-- C7: upserting two candidates with the same url in a row (identical
fields or not) leaves exactly one record under that url, and the id found
there after the second upsert equals the one after the first. -/
theorem upsert_idempotent (s : Store) (c1 c2 : Candidate)
    (hurl : c2.url = c1.url)
    (hnd : (s.rows.map (fun r => r.url)).Nodup) :
    urlCount (upsert (upsert s c1) c2) c1.url = 1 ∧
    (findRec (upsert (upsert s c1) c2) c1.url).map (fun r => r.id) =
      (findRec (upsert s c1) c1.url).map (fun r => r.id) := by
  have hmem : ∃ r ∈ (upsert s c1).rows, r.url = c2.url := by
    rw [hurl]
    exact upsert_mem_url s c1
  have hnd1 : ((upsert s c1).rows.map (fun r => r.url)).Nodup := by
    by_cases hex : ∃ r0 ∈ s.rows, r0.url = c1.url
    · rw [upsert_urls_pos s c1 hex]
      exact hnd
    · push_neg at hex
      rw [upsert_urls_neg s c1 hex]
      rw [List.nodup_append]
      refine ⟨hnd, List.nodup_singleton _, ?_⟩
      intro u hu hu1
      have : u = c1.url := by simpa using hu1
      subst this
      obtain ⟨r0, hr0, h0⟩ := List.mem_map.mp hu
      exact hex r0 hr0 h0
  constructor
  · rw [urlCount_upsert_pos (upsert s c1) c2 c1.url hmem]
    exact urlCount_eq_one (upsert s c1) c1.url hnd1 (upsert_mem_url s c1)
  · have := findRec_upsert_id (upsert s c1) c2 hmem
    rwa [hurl] at this

/-- C7 witness: re-upserting `exCand` on a store that already holds its
url keeps one record and the same id. -/
theorem upsert_idempotent_witness :
    urlCount (upsert (upsert exStore exCand) exCand) exCand.url = 1 ∧
    (findRec (upsert (upsert exStore exCand) exCand) exCand.url).map
        (fun r => r.id) =
      (findRec (upsert exStore exCand) exCand.url).map (fun r => r.id) :=
  upsert_idempotent exStore exCand exCand rfl (by decide)

/-! ### Ingestion-run claims -/

theorem ingest_mem_not_url (cs : List Candidate) :
    ∀ (s : Store) (r : OpportunityRecord), r ∈ (ingest s cs).rows →
      r.url ∉ cs.map (fun c => c.url) → r ∈ s.rows := by
  induction cs with
  | nil => exact fun _ _ hr _ => hr
  | cons c cs ih =>
    intro s r hr hn
    rw [List.map_cons, List.mem_cons] at hn
    push_neg at hn
    exact mem_upsert_of_ne s c r (ih (upsert s c) r hr hn.2) hn.1

theorem ingest_lastSeen (d : Date) (cs : List Candidate) :
    ∀ s : Store, (∀ c ∈ cs, c.last_seen = d) →
      ∀ r ∈ (ingest s cs).rows, r.url ∈ cs.map (fun c => c.url) →
        r.last_seen = d := by
  induction cs with
  | nil =>
    intro s _ r _ hm
    simp at hm
  | cons c cs ih =>
    intro s hcs r hr hm
    by_cases h2 : r.url ∈ cs.map (fun c => c.url)
    · exact ih (upsert s c) (fun c1 hc1 => hcs c1 (List.mem_cons_of_mem _ hc1))
        r hr h2
    · have hu : r.url = c.url := by
        rw [List.map_cons, List.mem_cons] at hm
        exact hm.resolve_right h2
      have hr1 : r ∈ (upsert s c).rows := ingest_mem_not_url cs (upsert s c) r hr h2
      have := (upsert_fields s c r hr1 hu).2.2.2.2.2.2.2.2
      rw [this]
      exact hcs c (List.mem_cons_self _ _)

theorem sampleBatch_urls (d : Date) :
    (sampleBatch d).map (fun c => c.url) = sampleUrls :=
  rfl

theorem sampleBatch_lastSeen (d : Date) :
    ∀ c ∈ sampleBatch d, c.last_seen = d := by
  intro c hc
  simp only [sampleBatch, List.mem_cons, List.not_mem_nil, or_false] at hc
  rcases hc with rfl | rfl | rfl <;> rfl

/-- C8: every sample-batch record written by an ingestion run carries that
run's date as `last_seen` (the batch is built with `last_seen = today`),
so across two runs at non-decreasing dates the stored `last_seen` never
decreases. -/
theorem main_lastSeen_fresh (d1 d2 : Date) (s : Store)
    (hle : Date.leb d1 d2 = true) :
    (∀ r ∈ (main d1 s).rows, r.url ∈ sampleUrls → r.last_seen = d1) ∧
    (∀ r ∈ (main d2 (main d1 s)).rows, r.url ∈ sampleUrls → r.last_seen = d2) ∧
    (∀ r1 ∈ (main d1 s).rows, ∀ r2 ∈ (main d2 (main d1 s)).rows,
      r1.url ∈ sampleUrls → r2.url = r1.url →
      Date.leb r1.last_seen r2.last_seen = true) := by
  have h1 : ∀ r ∈ (main d1 s).rows, r.url ∈ sampleUrls → r.last_seen = d1 := by
    intro r hr hu
    exact ingest_lastSeen d1 (sampleBatch d1) s (sampleBatch_lastSeen d1) r hr
      (by rwa [sampleBatch_urls])
  have h2 : ∀ r ∈ (main d2 (main d1 s)).rows, r.url ∈ sampleUrls →
      r.last_seen = d2 := by
    intro r hr hu
    exact ingest_lastSeen d2 (sampleBatch d2) (main d1 s)
      (sampleBatch_lastSeen d2) r hr (by rwa [sampleBatch_urls])
  refine ⟨h1, h2, ?_⟩
  intro r1 hr1 r2 hr2 hu1 hu2
  rw [h1 r1 hr1 hu1, h2 r2 hr2 (by rw [hu2]; exact hu1)]
  exact hle

/-- C8 witness: two runs dated 2025-01-01 and 2025-01-02 starting from the
empty store. -/
theorem main_lastSeen_fresh_witness :
    (∀ r ∈ (main ⟨2025, 1, 1⟩ emptyStore).rows, r.url ∈ sampleUrls →
      r.last_seen = ⟨2025, 1, 1⟩) ∧
    (∀ r ∈ (main ⟨2025, 1, 2⟩ (main ⟨2025, 1, 1⟩ emptyStore)).rows,
      r.url ∈ sampleUrls → r.last_seen = ⟨2025, 1, 2⟩) ∧
    (∀ r1 ∈ (main ⟨2025, 1, 1⟩ emptyStore).rows,
      ∀ r2 ∈ (main ⟨2025, 1, 2⟩ (main ⟨2025, 1, 1⟩ emptyStore)).rows,
      r1.url ∈ sampleUrls → r2.url = r1.url →
      Date.leb r1.last_seen r2.last_seen = true) :=
  main_lastSeen_fresh ⟨2025, 1, 1⟩ ⟨2025, 1, 2⟩ emptyStore (by decide)

/-- C5 counterexample: a batch whose only candidate has empty `title` and
`url` is not skipped — ingesting it grows the store by one record holding
those empty strings. -/
theorem ingest_accepts_empty_fields :
    (ingest emptyStore [badCand]).rows.length = 1 ∧
    ∃ r ∈ (ingest emptyStore [badCand]).rows, r.url = "" ∧ r.title = "" := by
  decide

/-- C5 amended: ingestion performs no field validation — a candidate with
empty `title` or `url` is upserted like any other (empty strings satisfy
the SQL `NOT NULL` constraints), inserting a new row when its url is new;
no candidate is skipped and no `ValidationError` exists. -/
theorem ingest_no_validation (s : Store) (c : Candidate)
    (_hbad : c.title = "" ∨ c.url = "")
    (habs : ∀ r ∈ s.rows, r.url ≠ c.url) :
    (ingest s [c]).rows = s.rows ++ [newRec s.nextId c] := by
  show (upsert s c).rows = _
  rw [upsert_neg s c habs]

/-- C5 witness: the empty-fields candidate lands in the store. -/
theorem ingest_no_validation_witness :
    (ingest emptyStore [badCand]).rows =
      emptyStore.rows ++ [newRec emptyStore.nextId badCand] :=
  ingest_no_validation emptyStore badCand (Or.inl rfl) (by decide)

theorem counts_partition (cs : List Candidate) :
    ∀ s : Store, countInserted s cs + countUpdated s cs = cs.length := by
  induction cs with
  | nil => intro s; rfl
  | cons c cs ih =>
    intro s
    have h1 := ih (upsert s c)
    by_cases hb : s.rows.any (fun r => decide (r.url = c.url)) = true
    · simp only [countInserted, countUpdated, if_pos hb, List.length_cons]
      omega
    · simp only [countInserted, countUpdated, if_neg hb, List.length_cons]
      omega

/-- C9 amended: `main` reports only one combined number — the batch
length — to which every candidate contributes exactly once (as an insert
or as an update; there is no skipped category and no per-kind breakdown). -/
theorem main_single_count (today : Date) (s : Store) :
    countInserted s (sampleBatch today) + countUpdated s (sampleBatch today) =
      mainSummary today ∧ mainSummary today = 3 :=
  ⟨counts_partition (sampleBatch today) s, rfl⟩

/-- C9 counterexample: a first run inserts 3 records and a repeat run
inserts 0 (it only updates), yet the reported summary is the same single
number 3 both times — it cannot be the inserted/updated/skipped partition
the claim describes. -/
theorem main_summary_no_breakdown :
    mainSummary ⟨2025, 1, 10⟩ = 3 ∧
    countInserted emptyStore (sampleBatch ⟨2025, 1, 10⟩) = 3 ∧
    countInserted (main ⟨2025, 1, 10⟩ emptyStore)
      (sampleBatch ⟨2025, 1, 10⟩) = 0 := by
  decide

/-! ### Order facts for the query ranking -/

theorem Date.leb_refl (a : Date) : Date.leb a a = true := by
  simp [Date.leb]

theorem Date.leb_total (a b : Date) :
    Date.leb a b = true ∨ Date.leb b a = true := by
  simp only [Date.leb, decide_eq_true_eq]
  omega

theorem Date.leb_trans (a b c : Date) (h1 : Date.leb a b = true)
    (h2 : Date.leb b c = true) : Date.leb a c = true := by
  simp only [Date.leb, decide_eq_true_eq] at h1 h2 ⊢
  omega

theorem Date.leb_antisymm (a b : Date) (h1 : Date.leb a b = true)
    (h2 : Date.leb b a = true) : a = b := by
  simp only [Date.leb, decide_eq_true_eq] at h1 h2
  obtain ⟨ya, ma, da⟩ := a
  obtain ⟨yb, mb, db⟩ := b
  simp only [Date.mk.injEq]
  simp only at h1 h2
  omega

theorem recLE_none_none (a b : OpportunityRecord) (ha : a.cfp_deadline = none)
    (hb : b.cfp_deadline = none) :
    recLE a b = Date.leb b.last_seen a.last_seen := by
  unfold recLE
  rw [ha, hb]

theorem recLE_none_some (a b : OpportunityRecord) (db : Date)
    (ha : a.cfp_deadline = none) (hb : b.cfp_deadline = some db) :
    recLE a b = false := by
  unfold recLE
  rw [ha, hb]

theorem recLE_some_none (a b : OpportunityRecord) (da : Date)
    (ha : a.cfp_deadline = some da) (hb : b.cfp_deadline = none) :
    recLE a b = true := by
  unfold recLE
  rw [ha, hb]

theorem recLE_some_some (a b : OpportunityRecord) (da db : Date)
    (ha : a.cfp_deadline = some da) (hb : b.cfp_deadline = some db) :
    recLE a b =
      (if da = db then Date.leb b.last_seen a.last_seen
       else Date.leb da db) := by
  unfold recLE
  rw [ha, hb]

theorem recLE_total (a b : OpportunityRecord) :
    recLE a b = true ∨ recLE b a = true := by
  rcases ha : a.cfp_deadline with _ | da <;> rcases hb : b.cfp_deadline with _ | db
  · rw [recLE_none_none a b ha hb, recLE_none_none b a hb ha]
    exact Date.leb_total _ _
  · rw [recLE_none_some a b db ha hb, recLE_some_none b a db hb ha]
    right
    rfl
  · rw [recLE_some_none a b da ha hb]
    left
    rfl
  · rw [recLE_some_some a b da db ha hb, recLE_some_some b a db da hb ha]
    by_cases hd : da = db
    · subst hd
      rw [if_pos rfl, if_pos rfl]
      exact Date.leb_total _ _
    · rw [if_neg hd, if_neg (Ne.symm hd)]
      exact Date.leb_total da db

theorem recLE_trans (a b c : OpportunityRecord) (hab : recLE a b = true)
    (hbc : recLE b c = true) : recLE a c = true := by
  rcases ha : a.cfp_deadline with _ | da <;>
    rcases hb : b.cfp_deadline with _ | db <;>
    rcases hc : c.cfp_deadline with _ | dc
  · rw [recLE_none_none a b ha hb] at hab
    rw [recLE_none_none b c hb hc] at hbc
    rw [recLE_none_none a c ha hc]
    exact Date.leb_trans _ _ _ hbc hab
  · rw [recLE_none_some b c dc hb hc] at hbc
    exact absurd hbc (by simp)
  · rw [recLE_none_some a b db ha hb] at hab
    exact absurd hab (by simp)
  · rw [recLE_none_some a b db ha hb] at hab
    exact absurd hab (by simp)
  · rw [recLE_some_none a c da ha hc]
  · rw [recLE_none_some b c dc hb hc] at hbc
    exact absurd hbc (by simp)
  · rw [recLE_some_none a c da ha hc]
  · rw [recLE_some_some a b da db ha hb] at hab
    rw [recLE_some_some b c db dc hb hc] at hbc
    rw [recLE_some_some a c da dc ha hc]
    by_cases h1 : da = db
    · subst h1
      rw [if_pos rfl] at hab
      by_cases h2 : da = dc
      · subst h2
        rw [if_pos rfl] at hbc ⊢
        exact Date.leb_trans _ _ _ hbc hab
      · rw [if_neg h2] at hbc ⊢
        exact hbc
    · rw [if_neg h1] at hab
      by_cases h2 : db = dc
      · subst h2
        rw [if_neg h1]
        exact hab
      · rw [if_neg h2] at hbc
        by_cases h3 : da = dc
        · have hba : Date.leb db da = true := by
            rw [h3]
            exact hbc
          exact absurd (Date.leb_antisymm da db hab hba) h1
        · rw [if_neg h3]
          exact Date.leb_trans _ _ _ hab hbc

theorem mem_insertOrd (le : α → α → Bool) (a x : α) (l : List α) :
    x ∈ insertOrd le a l ↔ x = a ∨ x ∈ l := by
  induction l with
  | nil => simp [insertOrd]
  | cons b l ih =>
    simp only [insertOrd]
    split
    · simp [List.mem_cons]
    · rw [List.mem_cons, ih, List.mem_cons]
      tauto

theorem pairwise_insertOrd (le : α → α → Bool)
    (htot : ∀ a b, le a b = true ∨ le b a = true)
    (htr : ∀ a b c, le a b = true → le b c = true → le a c = true)
    (a : α) (l : List α) (h : l.Pairwise (fun x y => le x y = true)) :
    (insertOrd le a l).Pairwise (fun x y => le x y = true) := by
  induction l with
  | nil => simp [insertOrd]
  | cons b l ih =>
    obtain ⟨hb, hl⟩ := List.pairwise_cons.mp h
    simp only [insertOrd]
    by_cases hab : le a b = true
    · rw [if_pos hab]
      refine List.pairwise_cons.mpr ⟨?_, h⟩
      intro x hx
      rcases List.mem_cons.mp hx with rfl | hx
      · exact hab
      · exact htr a b x hab (hb x hx)
    · rw [if_neg hab]
      refine List.pairwise_cons.mpr ⟨?_, ih hl⟩
      intro x hx
      rcases (mem_insertOrd le a x l).mp hx with rfl | hx
      · exact (htot x b).resolve_left hab
      · exact hb x hx

theorem pairwise_sortOrd (le : α → α → Bool)
    (htot : ∀ a b, le a b = true ∨ le b a = true)
    (htr : ∀ a b c, le a b = true → le b c = true → le a c = true)
    (l : List α) :
    (sortOrd le l).Pairwise (fun x y => le x y = true) := by
  induction l with
  | nil => simp [sortOrd]
  | cons a l ih => exact pairwise_insertOrd le htot htr a _ ih

theorem mem_sortOrd (le : α → α → Bool) (x : α) (l : List α) :
    x ∈ sortOrd le l ↔ x ∈ l := by
  induction l with
  | nil => simp [sortOrd]
  | cons a l ih =>
    simp only [sortOrd]
    rw [mem_insertOrd, ih, List.mem_cons]

theorem insertOrd_length (le : α → α → Bool) (a : α) (l : List α) :
    (insertOrd le a l).length = l.length + 1 := by
  induction l with
  | nil => rfl
  | cons b l ih =>
    simp only [insertOrd]
    split
    · rfl
    · simp [ih]

theorem sortOrd_length (le : α → α → Bool) (l : List α) :
    (sortOrd le l).length = l.length := by
  induction l with
  | nil => rfl
  | cons a l ih =>
    simp only [sortOrd]
    rw [insertOrd_length, ih]
    rfl

theorem recLE_claimOrder (a b : OpportunityRecord) (h : recLE a b = true) :
    claimOrder a b := by
  unfold claimOrder
  rcases ha : a.cfp_deadline with _ | da <;> rcases hb : b.cfp_deadline with _ | db
  · rw [recLE_none_none a b ha hb] at h
    exact Or.inr (Or.inr ⟨rfl, rfl, h⟩)
  · rw [recLE_none_some a b db ha hb] at h
    exact absurd h (by simp)
  · exact Or.inr (Or.inl ⟨by simp, rfl⟩)
  · rw [recLE_some_some a b da db ha hb] at h
    refine Or.inl ⟨da, db, rfl, rfl, ?_⟩
    by_cases hd : da = db
    · subst hd
      exact Date.leb_refl da
    · rwa [if_neg hd] at h

/-- C3: whatever the filters and limit, every pair of adjacent records in a
query result satisfies the documented ordering: dated records come in
non-decreasing deadline order, dated precede undated, and undated records
come in non-increasing `last_seen` order. -/
theorem fetch_ordered (s : Store) (q tag : Option String)
    (remote : Option Bool) (limit : Nat) :
    List.Chain' claimOrder (fetch_opportunities s q tag remote limit) := by
  apply List.Pairwise.chain'
  apply List.Pairwise.sublist (List.take_sublist _ _)
  exact (pairwise_sortOrd recLE recLE_total recLE_trans _).imp
    (fun h => recLE_claimOrder _ _ h)

/-! ### SQL LIKE semantics and the filter claims -/

theorem char_toNat_ofNat_valid (n : Nat) (h : n.isValidChar) :
    (Char.ofNat n).toNat = n := by
  rw [Char.ofNat, dif_pos h]
  rfl

theorem toLower_preserves_nonletter (w : Char)
    (hw : ¬(97 ≤ w.toNat ∧ w.toNat ≤ 122)) (c : Char)
    (h : Char.toLower c = w) : c = w := by
  unfold Char.toLower at h
  simp only at h
  split at h
  · exfalso
    apply hw
    rename_i hc
    have hv : (Char.toNat c + 32).isValidChar := Or.inl (by omega)
    have ht := char_toNat_ofNat_valid (Char.toNat c + 32) hv
    rw [h] at ht
    omega
  · exact h

theorem noWild_lowerL (l : List Char) (h : noWild l) : noWild (lowerL l) := by
  intro c hc
  obtain ⟨c0, hc0, rfl⟩ := List.mem_map.mp hc
  obtain ⟨h1, h2⟩ := h c0 hc0
  constructor
  · intro heq
    exact h1 (toLower_preserves_nonletter '%' (by decide) c0 heq)
  · intro heq
    exact h2 (toLower_preserves_nonletter '_' (by decide) c0 heq)

theorem likeStar_iff (f : List Char → Bool) (s : List Char) :
    likeStar f s = true ↔ ∃ u t, s = u ++ t ∧ f t = true := by
  induction s with
  | nil =>
    constructor
    · intro h
      exact ⟨[], [], rfl, h⟩
    · rintro ⟨u, t, hu, ht⟩
      obtain ⟨rfl, rfl⟩ := List.append_eq_nil.mp hu.symm
      exact ht
  | cons c s ih =>
    simp only [likeStar, Bool.or_eq_true, ih]
    constructor
    · rintro (h | ⟨u, t, rfl, ht⟩)
      · exact ⟨[], c :: s, rfl, h⟩
      · exact ⟨c :: u, t, rfl, ht⟩
    · rintro ⟨u, t, hu, ht⟩
      cases u with
      | nil =>
        left
        rw [List.nil_append] at hu
        rw [hu]
        exact ht
      | cons x u =>
        right
        rw [List.cons_append] at hu
        injection hu with h1 h2
        exact ⟨u, t, h2, ht⟩

theorem likeMatch_lit (p q : List Char) :
    ∀ s, noWild p →
      (likeMatch (p ++ q) s = true ↔
        ∃ t, s = p ++ t ∧ likeMatch q t = true) := by
  induction p with
  | nil =>
    intro s _
    simp only [List.nil_append]
    constructor
    · intro h
      exact ⟨s, rfl, h⟩
    · rintro ⟨t, rfl, ht⟩
      exact ht
  | cons x p ih =>
    intro s hp
    obtain ⟨hx1, hx2⟩ := hp x (List.mem_cons_self _ _)
    have hp1 : noWild p := fun c hc => hp c (List.mem_cons_of_mem _ hc)
    rw [List.cons_append]
    simp only [likeMatch]
    rw [if_neg hx1]
    cases s with
    | nil =>
      constructor
      · intro h
        exact absurd h (by simp)
      · rintro ⟨t, ht, _⟩
        exact absurd ht (by simp)
    | cons c t =>
      rw [Bool.and_eq_true, Bool.or_eq_true]
      constructor
      · rintro ⟨h1, h2⟩
        have hxc : x = c := by
          rcases h1 with h1 | h1
          · exact absurd (of_decide_eq_true h1) hx2
          · exact eq_of_beq h1
        subst hxc
        obtain ⟨t1, ht1, hm1⟩ := (ih t hp1).mp h2
        refine ⟨t1, ?_, hm1⟩
        rw [List.cons_append, ht1]
      · rintro ⟨t1, ht1, hm1⟩
        rw [List.cons_append] at ht1
        injection ht1 with hc1 hc2
        refine ⟨Or.inr ?_, ?_⟩
        · exact beq_iff_eq.mpr hc1.symm
        · rw [hc2]
          exact (ih (p ++ t1) hp1).mpr ⟨t1, rfl, hm1⟩

theorem likeMatch_single_pct (s : List Char) : likeMatch ['%'] s = true := by
  have h0 : likeMatch ['%'] s = likeStar (likeMatch []) s := by
    simp only [likeMatch]
    rw [if_pos trivial]
  rw [h0, likeStar_iff]
  exact ⟨s, [], by simp, rfl⟩

theorem likeParam_substring (x : String) (t : List Char)
    (hnw : noWild (lowerL x.data))
    (h : likeMatch (likeParam x) t = true) :
    ∃ u v, t = u ++ lowerL x.data ++ v := by
  unfold likeParam at h
  have hp : likeMatch ('%' :: (lowerL x.data ++ ['%'])) t =
      likeStar (likeMatch (lowerL x.data ++ ['%'])) t := by
    simp only [likeMatch]
    rw [if_pos trivial]
  rw [hp, likeStar_iff] at h
  obtain ⟨u, t1, rfl, ht1⟩ := h
  obtain ⟨v, rfl, _⟩ := (likeMatch_lit (lowerL x.data) ['%'] t1 hnw).mp ht1
  exact ⟨u, v, (List.append_assoc u (lowerL x.data) v).symm⟩

theorem mem_fetch (s : Store) (q tag : Option String) (remote : Option Bool)
    (limit : Nat) (r : OpportunityRecord)
    (hr : r ∈ fetch_opportunities s q tag remote limit) :
    r ∈ s.rows ∧ rowMatches q tag remote r = true := by
  unfold fetch_opportunities at hr
  have h1 := (List.take_sublist _ _).subset hr
  rw [mem_sortOrd] at h1
  exact ⟨(List.mem_filter.mp h1).1, (List.mem_filter.mp h1).2⟩

theorem rowMatches_parts (q tag : Option String) (remote : Option Bool)
    (r : OpportunityRecord) (h : rowMatches q tag remote r = true) :
    (∀ qs, q = some qs → qs ≠ "" →
      (optLike (some r.title) (likeParam qs) = true ∨
        optLike r.organizer (likeParam qs) = true)) ∧
    (∀ ts, tag = some ts → ts ≠ "" →
      optLike r.topic_tags (likeParam ts) = true) ∧
    (∀ b, remote = some b → r.is_remote = some b) := by
  unfold rowMatches at h
  rw [Bool.and_eq_true, Bool.and_eq_true] at h
  obtain ⟨⟨hq, ht⟩, hm⟩ := h
  refine ⟨?_, ?_, ?_⟩
  · rintro qs rfl hqs
    have hq1 : (qs == "" ||
        (optLike (some r.title) (likeParam qs) ||
          optLike r.organizer (likeParam qs))) = true := hq
    rw [Bool.or_eq_true, Bool.or_eq_true] at hq1
    rcases hq1 with hq1 | hq1
    · exact absurd (eq_of_beq hq1) hqs
    · exact hq1
  · rintro ts rfl hts
    have ht1 : (ts == "" || optLike r.topic_tags (likeParam ts)) = true := ht
    rw [Bool.or_eq_true] at ht1
    rcases ht1 with ht1 | ht1
    · exact absurd (eq_of_beq ht1) hts
    · exact ht1
  · rintro b rfl
    exact eq_of_beq hm

/-- C4 amended: present filters do combine with AND and remote filtering is
exact, but `tag` and `textQuery` are SQL LIKE containment on the lowered
strings (the user string is interpolated between two `%`): every returned
record satisfies the LIKE conjuncts, and when the filter string contains no
LIKE wildcard (`%` or `_`) this is exactly case-insensitive substring
containment. -/
theorem fetch_filters_and (s : Store) (q tag : Option String)
    (remote : Option Bool) (limit : Nat) (r : OpportunityRecord)
    (hr : r ∈ fetch_opportunities s q tag remote limit) :
    (∀ ts, tag = some ts → ts ≠ "" →
      optLike r.topic_tags (likeParam ts) = true ∧
      (noWild ts.data → ∃ t, r.topic_tags = some t ∧
        ∃ u v, lowerL t.data = u ++ lowerL ts.data ++ v)) ∧
    (∀ qs, q = some qs → qs ≠ "" →
      (optLike (some r.title) (likeParam qs) = true ∨
        optLike r.organizer (likeParam qs) = true) ∧
      (noWild qs.data →
        (∃ u v, lowerL r.title.data = u ++ lowerL qs.data ++ v) ∨
        ∃ o, r.organizer = some o ∧
          ∃ u v, lowerL o.data = u ++ lowerL qs.data ++ v)) ∧
    (∀ b, remote = some b → r.is_remote = some b) := by
  obtain ⟨_, hm⟩ := mem_fetch s q tag remote limit r hr
  obtain ⟨hq, ht, hb⟩ := rowMatches_parts q tag remote r hm
  refine ⟨?_, ?_, hb⟩
  · intro ts hts hne
    have h1 := ht ts hts hne
    refine ⟨h1, fun hnw => ?_⟩
    rcases htt : r.topic_tags with _ | t
    · rw [htt] at h1
      exact absurd h1 (by simp [optLike])
    · rw [htt] at h1
      exact ⟨t, rfl,
        likeParam_substring ts (lowerL t.data) (noWild_lowerL _ hnw) h1⟩
  · intro qs hqs hne
    have h1 := hq qs hqs hne
    refine ⟨h1, fun hnw => ?_⟩
    rcases h1 with h1 | h1
    · exact Or.inl
        (likeParam_substring qs (lowerL r.title.data) (noWild_lowerL _ hnw) h1)
    · rcases ho : r.organizer with _ | o
      · rw [ho] at h1
        exact absurd h1 (by simp [optLike])
      · rw [ho] at h1
        exact Or.inr ⟨o, rfl,
          likeParam_substring qs (lowerL o.data) (noWild_lowerL _ hnw) h1⟩

/-- C4 witness: with the wildcard-free tag "b", the returned record's tags
contain "b" as a case-insensitive substring. -/
theorem fetch_filters_and_witness :
    optLike exRec.topic_tags (likeParam "b") = true ∧
    ∃ t, exRec.topic_tags = some t ∧
      ∃ u v, lowerL t.data = u ++ lowerL ("b" : String).data ++ v :=
  ⟨((fetch_filters_and exStore none (some "b") none 50 exRec
      (by decide)).1 "b" rfl (by decide)).1,
   ((fetch_filters_and exStore none (some "b") none 50 exRec
      (by decide)).1 "b" rfl (by decide)).2 (by decide)⟩

/-- C4 counterexample: with the tag filter "a_c", the record whose tags are
"abc" is returned (the LIKE `_` wildcard matches the letter b), but "a_c"
is not a substring of "abc" — the substring reading of the claim fails for
filter strings containing LIKE wildcards. -/
theorem fetch_tag_not_substring :
    exRec ∈ fetch_opportunities exStore none (some "a_c") none 50 ∧
    ¬∃ u v, lowerL (("abc" : String)).data =
      u ++ lowerL (("a_c" : String)).data ++ v := by
  constructor
  · decide
  · rintro ⟨u, v, h⟩
    have e1 : lowerL (("abc" : String)).data = ['a', 'b', 'c'] := by decide
    have e2 : lowerL (("a_c" : String)).data = ['a', '_', 'c'] := by decide
    rw [e1, e2] at h
    have hl := congrArg List.length h
    simp only [List.length_append, List.length_cons, List.length_nil] at hl
    have hu : u.length = 0 := by omega
    have hv : v.length = 0 := by omega
    rw [List.length_eq_zero] at hu hv
    subst hu
    subst hv
    rw [List.nil_append, List.append_nil] at h
    exact absurd h (by decide)

/-- C6 counterexample: a query with the non-positive limit 0 does not fail:
on a store whose one record is returned at limit 50, limit 0 simply
returns the empty result (`{count: 0, results: []}`); the code contains no
limit validation and no `ValidationError`. -/
theorem fetch_limit_zero_returns :
    fetch_opportunities exStore none none none 50 = [exRec] ∧
    api_opportunities exStore none none none 0 =
      { count := 0, results := [] } := by
  decide

/-- C6 amended: `limit` is unvalidated: the query is total, limit 0 yields
an empty result rather than an error, the result length never exceeds the
limit, an oversized limit returns the entire ordered result set, and an
unsupplied limit defaults to 50. -/
theorem fetch_limit_behavior (s : Store) (q tag : Option String)
    (remote : Option Bool) (limit : Nat) :
    fetch_opportunities s q tag remote 0 = [] ∧
    (fetch_opportunities s q tag remote limit).length ≤ limit ∧
    ((s.rows.filter (rowMatches q tag remote)).length ≤ limit →
      fetch_opportunities s q tag remote limit =
        sortOrd recLE (s.rows.filter (rowMatches q tag remote))) ∧
    fetch_opportunities s q tag remote =
      fetch_opportunities s q tag remote 50 := by
  refine ⟨rfl, ?_, ?_, rfl⟩
  · show (List.take limit _).length ≤ limit
    rw [List.length_take]
    exact Nat.min_le_left _ _
  · intro h
    show List.take limit _ = _
    apply List.take_of_length_le
    rw [sortOrd_length]
    exact h

/-- C6 witness: an oversized limit (5 on a one-record store) returns the
whole ordered result set without failing. -/
theorem fetch_limit_behavior_witness :
    fetch_opportunities exStore none none none 5 =
      sortOrd recLE (exStore.rows.filter (rowMatches none none none)) :=
  (fetch_limit_behavior exStore none none none 5).2.2.1 (by decide)

/-- C10: the home route maps the `remote` query string as "yes" ↦ remote
only, "no" ↦ in-person only, and anything else (absent or any other
string, e.g. "true") ↦ no remoteness constraint — and with no constraint
the row filter is independent of `is_remote`, so both remote and in-person
records are returned. -/
theorem home_remote_mapping (s : Store) (q tag : Option String) :
    parseRemote (some "yes") = some true ∧
    parseRemote (some "no") = some false ∧
    parseRemote none = none ∧
    (∀ x : String, x ≠ "yes" → x ≠ "no" → parseRemote (some x) = none) ∧
    (∀ (r : OpportunityRecord) (b : Option Bool),
      rowMatches q tag none { r with is_remote := b } =
        rowMatches q tag none r) ∧
    home s q tag (some "true") = fetch_opportunities s q tag none 50 := by
  refine ⟨by decide, by decide, rfl, ?_, ?_, ?_⟩
  · intro x h1 h2
    unfold parseRemote
    rw [if_neg (by simpa using h1), if_neg (by simpa using h2)]
  · intro r b
    cases q <;> cases tag <;> rfl
  · unfold home
    rw [(show parseRemote (some "true") = none by decide)]

/-- C10 witness: the unrecognized string "true" imposes no remoteness
constraint on the home route. -/
theorem home_remote_mapping_witness :
    parseRemote (some "true") = none ∧
    home exStore none none (some "true") =
      fetch_opportunities exStore none none none 50 :=
  ⟨(home_remote_mapping exStore none none).2.2.2.1 "true" (by decide)
      (by decide),
   (home_remote_mapping exStore none none).2.2.2.2.2⟩

end SpeakingOpps
